import Mathlib

/-!
# Verification of the media-gallery-compressor orchestration pipeline

Shallow embedding of the compression orchestration pipeline of
`media-gallery-compressor` (files `compressor.py`, `compression_utilities.py`,
`file_utilities.py`, `cli_utilities.py`).

Paths are modelled as `List Char`.  The filesystem is modelled as an
association list from paths to regular files (directories are implicit; every
filesystem primitive used by the pipeline on regular files is modelled:
`os.path.exists` / `os.path.isfile` on a file path, `os.path.getsize`,
`shutil.move`, `shutil.copyfile`, `os.remove`, `os.stat`, `os.utime`).
The external codec payloads (Pillow's `Image.open`/`im.save`, the `ffmpeg`
subprocess) are external collaborators per the specification and are modelled
as an oracle structure `Codec`; the orchestration logic around them is
translated from the source.
-/

set_option autoImplicit false

namespace MediaCompressor

/-! ## Python `os.path` string functions -/

/-- The basename of a path: the characters strictly after the last `'/'`
(the whole path if it has no `'/'`). -/
def pathBasename (p : List Char) : List Char :=
  (p.reverse.takeWhile (· ≠ '/')).reverse

/-- The directory part of a path: everything up to and including the last
`'/'` (empty if the path has no `'/'`). -/
def pathDirname (p : List Char) : List Char :=
  (p.reverse.dropWhile (· ≠ '/')).reverse

/-- `os.path.splitext` restricted to the basename, following CPython's
`genericpath._splitext`: leading dots of the final path component are part of
the root, and the split happens at the last dot only when some non-dot
character of the component precedes it. -/
def splitextBase (b : List Char) : List Char × List Char :=
  let lead := b.takeWhile (· = '.')
  let rest := b.dropWhile (· = '.')
  if rest.contains '.' then
    let r := rest.reverse
    let afterRev := r.takeWhile (· ≠ '.')
    (lead ++ (r.drop (afterRev.length + 1)).reverse, '.' :: afterRev.reverse)
  else
    (b, [])

/-- `os.path.splitext` (POSIX: separator `'/'`, no `altsep`): split the
basename as in `splitextBase` and keep the directory part on the root. -/
def splitext (p : List Char) : List Char × List Char :=
  let pair := splitextBase (pathBasename p)
  (pathDirname p ++ pair.1, pair.2)

/-- `str.lower` on the character lists we use (ASCII file extensions). -/
def lowerStr (s : List Char) : List Char := s.map Char.toLower

/-- `file_utilities.lowercase_file_extension`:
`os.path.splitext(filename)[-1].lower()`. -/
def lowercase_file_extension (filename : List Char) : List Char :=
  lowerStr (splitext filename).2

/-- `os.path.join(a, b)` in the regime the pipeline uses it (a non-empty root
with no trailing separator joined with a relative path). -/
def osPathJoin (a b : List Char) : List Char := a ++ '/' :: b

/-- `os.path.relpath(p, start)` in the regime the pipeline uses it: `p` is a
path produced by globbing under the root `start`, i.e. `start ++ "/" ++ rel`,
and the result is `rel`.  (Outside that regime the pipeline never calls it;
we return `p` unchanged.) -/
def osPathRelpath (p start : List Char) : List Char :=
  if (start ++ ['/']).isPrefixOf p then p.drop (start.length + 1) else p

/-! ### Basic lemmas about the path functions -/

theorem takeWhile_append_of_all {α : Type} (p : α → Bool) (l₁ l₂ : List α)
    (h : ∀ a ∈ l₁, p a) :
    (l₁ ++ l₂).takeWhile p = l₁ ++ l₂.takeWhile p := by
  induction l₁ with
  | nil => simp
  | cons a t ih =>
    have ha : p a = true := h a (by simp)
    simp only [List.cons_append, List.takeWhile_cons, ha]
    simp [ih fun b hb => h b (by simp [hb])]

theorem dropWhile_append_of_all {α : Type} (p : α → Bool) (l₁ l₂ : List α)
    (h : ∀ a ∈ l₁, p a) :
    (l₁ ++ l₂).dropWhile p = l₂.dropWhile p := by
  induction l₁ with
  | nil => simp
  | cons a t ih =>
    have ha : p a = true := h a (by simp)
    simp only [List.cons_append, List.dropWhile_cons, ha]
    exact ih fun b hb => h b (by simp [hb])

theorem takeWhile_append_of_not_all {α : Type} (p : α → Bool) (l₁ l₂ : List α)
    (h : ¬ ∀ a ∈ l₁, p a) :
    (l₁ ++ l₂).takeWhile p = l₁.takeWhile p := by
  induction l₁ with
  | nil => exact absurd (by simp) h
  | cons a t ih =>
    by_cases ha : p a = true
    · have ht : ¬ ∀ b ∈ t, p b = true := fun hall => h (by
        intro b hb
        rw [List.mem_cons] at hb
        rcases hb with rfl | hb
        · exact ha
        · exact hall b hb)
      simp [List.takeWhile_cons, ha, ih ht]
    · simp [List.takeWhile_cons, ha]

theorem dropWhile_append_of_not_all {α : Type} (p : α → Bool) (l₁ l₂ : List α)
    (h : ¬ ∀ a ∈ l₁, p a) :
    (l₁ ++ l₂).dropWhile p = l₁.dropWhile p ++ l₂ := by
  induction l₁ with
  | nil => exact absurd (by simp) h
  | cons a t ih =>
    by_cases ha : p a = true
    · have ht : ¬ ∀ b ∈ t, p b = true := fun hall => h (by
        intro b hb
        rw [List.mem_cons] at hb
        rcases hb with rfl | hb
        · exact ha
        · exact hall b hb)
      simp [List.dropWhile_cons, ha, ih ht]
    · simp [List.dropWhile_cons, ha]

/-- The extension returned by `splitextBase` is empty or starts with a dot. -/
theorem splitextBase_ext_empty_or_dot (b : List Char) :
    (splitextBase b).2 = [] ∨ ∃ t, (splitextBase b).2 = '.' :: t := by
  by_cases h : '.' ∈ b.dropWhile (· = '.')
  · right
    exact ⟨((b.dropWhile (· = '.')).reverse.takeWhile (· ≠ '.')).reverse,
      by simp [splitextBase, h]⟩
  · left; simp [splitextBase, h]

/-- The extension returned by `splitext` is empty or starts with a dot. -/
theorem splitext_ext_empty_or_dot (p : List Char) :
    (splitext p).2 = [] ∨ ∃ t, (splitext p).2 = '.' :: t := by
  unfold splitext
  exact splitextBase_ext_empty_or_dot (pathBasename p)

theorem pathDirname_append_pathBasename (p : List Char) :
    pathDirname p ++ pathBasename p = p := by
  unfold pathDirname pathBasename
  rw [← List.reverse_append, List.takeWhile_append_dropWhile, List.reverse_reverse]

/-- Appending a slash-free suffix extends the basename. -/
theorem pathBasename_append (a b : List Char) (hb : ∀ c ∈ b, c ≠ '/') :
    pathBasename (a ++ b) = pathBasename a ++ b := by
  unfold pathBasename
  rw [List.reverse_append,
    takeWhile_append_of_all (· ≠ '/') b.reverse a.reverse
      (by intro c hc; simpa using hb c (by simpa using hc)),
    List.reverse_append, List.reverse_reverse]

/-- Appending a slash-free suffix leaves the dirname unchanged. -/
theorem pathDirname_append (a b : List Char) (hb : ∀ c ∈ b, c ≠ '/') :
    pathDirname (a ++ b) = pathDirname a := by
  unfold pathDirname
  rw [List.reverse_append,
    dropWhile_append_of_all (· ≠ '/') b.reverse a.reverse
      (by intro c hc; simpa using hb c (by simpa using hc))]

/-! ## Image extension correction (`compression_utilities.py`) -/

/-- `compression_utilities.correct_image_extension_if_needed`: if Pillow's
detected format disagrees with the (lowercased) extension of the temp file
name, rewrite the temp file name's extension.  The comparison literals are
the dot-less strings `"jpg"` and `"png"`, exactly as in the source. -/
def correct_image_extension_if_needed (image_format temp_filename : List Char) :
    List Char :=
  let temp_extension := lowercase_file_extension temp_filename
  if image_format = "JPEG".toList ∧ temp_extension ≠ "jpg".toList then
    (splitext temp_filename).1 ++ ".jpg".toList
  else if image_format = "PNG".toList ∧ temp_extension ≠ "png".toList then
    (splitext temp_filename).1 ++ ".png".toList
  else
    temp_filename

/-- `lowercase_file_extension` always returns the empty list or a list that
starts with `'.'`. -/
theorem lowercase_file_extension_empty_or_dot (f : List Char) :
    lowercase_file_extension f = [] ∨
      ∃ t, lowercase_file_extension f = '.' :: t := by
  rcases splitext_ext_empty_or_dot f with h | ⟨t, h⟩
  · left; simp [lowercase_file_extension, lowerStr, h]
  · right
    refine ⟨t.map Char.toLower, ?_⟩
    have hdot : Char.toLower '.' = '.' := rfl
    simp [lowercase_file_extension, lowerStr, h, hdot]

/-- The JPEG guard of `correct_image_extension_if_needed` is true for every
file name: the extracted extension carries a leading dot (or is empty) while
the literal is the dot-less `"jpg"`. -/
theorem lowercase_file_extension_ne_jpg (f : List Char) :
    lowercase_file_extension f ≠ "jpg".toList := by
  rcases lowercase_file_extension_empty_or_dot f with h | ⟨t, h⟩ <;>
    simp [h, show "jpg".toList = ['j', 'p', 'g'] from rfl]

/-- The PNG guard of `correct_image_extension_if_needed` is true for every
file name. -/
theorem lowercase_file_extension_ne_png (f : List Char) :
    lowercase_file_extension f ≠ "png".toList := by
  rcases lowercase_file_extension_empty_or_dot f with h | ⟨t, h⟩ <;>
    simp [h, show "png".toList = ['p', 'n', 'g'] from rfl]

theorem correct_image_extension_jpeg (tmp : List Char) :
    correct_image_extension_if_needed "JPEG".toList tmp =
      (splitext tmp).1 ++ ".jpg".toList := by
  simp only [correct_image_extension_if_needed]
  split
  · rfl
  · rename_i h
    exact absurd ⟨trivial, lowercase_file_extension_ne_jpg tmp⟩ h

theorem correct_image_extension_png (tmp : List Char) :
    correct_image_extension_if_needed "PNG".toList tmp =
      (splitext tmp).1 ++ ".png".toList := by
  simp only [correct_image_extension_if_needed]
  split
  · rename_i h
    exact absurd h.1 (by decide)
  · split
    · rfl
    · rename_i h
      exact absurd ⟨trivial, lowercase_file_extension_ne_png tmp⟩ h

/-- `splitextBase` on a component of the form `B ++ "." ++ e` (with `e` free
of dots) recovers `(B, "." ++ e)`, provided `B` has a non-dot character. -/
theorem splitextBase_append_dot_ext (B e : List Char)
    (hb : ∃ c ∈ B, c ≠ '.') (he1 : '.' ∉ e) :
    splitextBase (B ++ '.' :: e) = (B, '.' :: e) := by
  obtain ⟨c, hcmem, hcne⟩ := hb
  have hnotall : ¬ ∀ a ∈ B, (fun x => decide (x = '.')) a = true := by
    intro hall
    have := hall c hcmem
    simp at this
    exact hcne this
  have hlead :
      (B ++ '.' :: e).takeWhile (fun x => decide (x = '.')) =
        B.takeWhile (fun x => decide (x = '.')) :=
    takeWhile_append_of_not_all _ B ('.' :: e) hnotall
  have hrest :
      (B ++ '.' :: e).dropWhile (fun x => decide (x = '.')) =
        B.dropWhile (fun x => decide (x = '.')) ++ '.' :: e :=
    dropWhile_append_of_not_all _ B ('.' :: e) hnotall
  have hrrev :
      (B.dropWhile (fun x => decide (x = '.')) ++ '.' :: e).reverse =
        (e.reverse ++ ['.']) ++
          (B.dropWhile (fun x => decide (x = '.'))).reverse := by
    simp
  have hall_e : ∀ a ∈ e.reverse, (fun x => decide (x ≠ '.')) a = true := by
    intro a ha
    have : a ∈ e := List.mem_reverse.mp ha
    simp
    exact fun h => he1 (h ▸ this)
  have hafter :
      ((e.reverse ++ ['.']) ++
          (B.dropWhile (fun x => decide (x = '.'))).reverse).takeWhile
            (fun x => decide (x ≠ '.')) = e.reverse := by
    rw [List.append_assoc, takeWhile_append_of_all _ e.reverse _ hall_e]
    simp
  simp only [splitextBase, hlead, hrest]
  rw [if_pos (by simp), hrrev, hafter, List.length_reverse,
    show e.length + 1 = (e.reverse ++ ['.']).length by simp, List.drop_left]
  simp [List.takeWhile_append_dropWhile]

/-- Splitting a path of the form `s ++ "." ++ e` (with `e` free of dots and
slashes) recovers `(s, "." ++ e)`, provided the final path component of `s`
contains at least one non-dot character. -/
theorem splitext_append_dot_ext (s e : List Char)
    (hb : ∃ c ∈ pathBasename s, c ≠ '.')
    (he1 : '.' ∉ e) (he2 : '/' ∉ e) :
    splitext (s ++ '.' :: e) = (s, '.' :: e) := by
  have hslash : ∀ ch ∈ ('.' :: e), ch ≠ '/' := by
    intro ch hch
    rcases List.mem_cons.mp hch with rfl | hch
    · decide
    · exact fun h => he2 (h ▸ hch)
  have hBase : pathBasename (s ++ '.' :: e) = pathBasename s ++ '.' :: e :=
    pathBasename_append s ('.' :: e) hslash
  have hDir : pathDirname (s ++ '.' :: e) = pathDirname s :=
    pathDirname_append s ('.' :: e) hslash
  simp only [splitext, hBase, hDir,
    splitextBase_append_dot_ext (pathBasename s) e hb he1]
  exact Prod.ext (pathDirname_append_pathBasename s) rfl

/-- Second application of the JPEG correction: stable whenever the stem's
final path component contains a non-dot character. -/
theorem correct_image_extension_jpeg_idem (tmp : List Char)
    (hb : ∃ c ∈ pathBasename (splitext tmp).1, c ≠ '.') :
    correct_image_extension_if_needed "JPEG".toList
        (correct_image_extension_if_needed "JPEG".toList tmp) =
      correct_image_extension_if_needed "JPEG".toList tmp := by
  rw [correct_image_extension_jpeg tmp, correct_image_extension_jpeg]
  have : (splitext tmp).1 ++ ".jpg".toList =
      (splitext tmp).1 ++ '.' :: "jpg".toList := rfl
  rw [this, splitext_append_dot_ext (splitext tmp).1 "jpg".toList hb
    (by decide) (by decide)]
  exact this

/-- Second application of the PNG correction: stable whenever the stem's
final path component contains a non-dot character. -/
theorem correct_image_extension_png_idem (tmp : List Char)
    (hb : ∃ c ∈ pathBasename (splitext tmp).1, c ≠ '.') :
    correct_image_extension_if_needed "PNG".toList
        (correct_image_extension_if_needed "PNG".toList tmp) =
      correct_image_extension_if_needed "PNG".toList tmp := by
  rw [correct_image_extension_png tmp, correct_image_extension_png]
  have : (splitext tmp).1 ++ ".png".toList =
      (splitext tmp).1 ++ '.' :: "png".toList := rfl
  rw [this, splitext_append_dot_ext (splitext tmp).1 "png".toList hb
    (by decide) (by decide)]
  exact this

/-! ## Filesystem model

Regular files carry their byte content and the two timestamps the pipeline
manipulates (`st_atime`, `st_mtime`).  A filesystem is an association list
from absolute paths to files; directories are implicit. -/

/-- A regular file: byte content plus access and modification times. -/
structure File where
  content : List Nat
  atime : Int
  mtime : Int
deriving DecidableEq, Repr

/-- Byte size of a file (`os.path.getsize` / `st_size`). -/
def File.size (f : File) : Nat := f.content.length

/-- A filesystem: association list from paths to regular files. -/
abbrev Fs := List (List Char × File)

/-- Look up the file stored at a path. -/
def fsLookup : Fs → List Char → Option File
  | [], _ => none
  | (q, f) :: rest, p => if q = p then some f else fsLookup rest p

/-- Delete the entry at a path (no-op when absent) — `os.remove` on an
existing file, and the deletion half of a move. -/
def fsErase (fs : Fs) (p : List Char) : Fs :=
  fs.filter (fun e => e.1 ≠ p)

/-- Store a file at a path, overwriting any previous entry. -/
def fsInsert (fs : Fs) (p : List Char) (f : File) : Fs :=
  (p, f) :: fsErase fs p

theorem fsLookup_fsErase (fs : Fs) (p q : List Char) :
    fsLookup (fsErase fs p) q = if q = p then none else fsLookup fs q := by
  induction fs with
  | nil => simp [fsErase, fsLookup]
  | cons e rest ih =>
    obtain ⟨k, v⟩ := e
    by_cases hkp : k = p
    · subst hkp
      rw [show fsErase ((k, v) :: rest) k = fsErase rest k by
        simp [fsErase, List.filter_cons], ih]
      by_cases hqk : q = k
      · simp [hqk]
      · have hkq : ¬ k = q := fun hh => hqk hh.symm
        simp [fsLookup, hqk, hkq]
    · rw [show fsErase ((k, v) :: rest) p = (k, v) :: fsErase rest p by
        simp [fsErase, List.filter_cons, hkp]]
      by_cases hkq : k = q
      · subst hkq
        simp [fsLookup, hkp]
      · simp [fsLookup, hkq, ih]

theorem fsLookup_fsInsert (fs : Fs) (p q : List Char) (f : File) :
    fsLookup (fsInsert fs p f) q = if q = p then some f else fsLookup fs q := by
  by_cases h : q = p
  · simp [fsInsert, fsLookup, h]
  · have h' : ¬ p = q := fun hh => h hh.symm
    simp [fsInsert, fsLookup, h', fsLookup_fsErase, h]

/-- `os.path.exists` (our model stores only regular files, and the pipeline
applies existence checks to file paths). -/
def osPathExists (fs : Fs) (p : List Char) : Bool :=
  (fsLookup fs p).isSome

/-- `os.path.getsize` on an existing file (the pipeline only calls it after
an existence check; `0` for a missing file keeps the model total). -/
def osPathGetsize (fs : Fs) (p : List Char) : Nat :=
  ((fsLookup fs p).map File.size).getD 0

/-- `shutil.move(src, dst)` for a file: the entry leaves `src` and lands at
`dst`, overwriting `dst` and keeping content and timestamps. -/
def shutilMove (fs : Fs) (src dst : List Char) : Fs :=
  match fsLookup fs src with
  | some f => fsInsert (fsErase fs src) dst f
  | none => fs

/-- `shutil.copyfile(src, dst)`: copies the bytes only; the copy's
timestamps are the time of the copy (`now`), not the source's. -/
def shutilCopyfile (now : Int) (fs : Fs) (src dst : List Char) : Fs :=
  match fsLookup fs src with
  | some f => fsInsert fs dst { content := f.content, atime := now, mtime := now }
  | none => fs

/-- `os.remove`. -/
def osRemove (fs : Fs) (p : List Char) : Fs := fsErase fs p

/-- `os.utime(p, (atime, mtime))`. -/
def osUtime (fs : Fs) (p : List Char) (a m : Int) : Fs :=
  match fsLookup fs p with
  | some f => fsInsert fs p { content := f.content, atime := a, mtime := m }
  | none => fs

/-- The fatal errors the pipeline can raise (`ValueError` / `RuntimeError` /
uncaught exceptions), tagged by raise site. -/
inductive RunError where
  /-- `choose_compression_or_original_file`: "Input file seems to no longer
  exist". -/
  | inputVanished
  /-- `choose_compression_or_original_file`: "Encountered a file collision
  when copying to the output directory". -/
  | outputCollision
  /-- `os.stat` on a vanished input when restoring timestamps. -/
  | statFailed
  /-- `Image.open` on a missing input file (uncaught `FileNotFoundError`). -/
  | imageOpenFailed
  /-- `verify_compression_consistency`: uncaught `ZeroDivisionError` from
  `1 - output_size / input_size`. -/
  | zeroDivisionError
  /-- `verify_compression_consistency`: "unrealistic compression rate". -/
  | unrealisticCompression
  /-- `clean_up_temp_directory`: "The temp directory is not empty". -/
  | tempDirectoryNotEmpty
deriving DecidableEq, Repr

instance instDecidableEqExcept {ε α : Type} [DecidableEq ε] [DecidableEq α] :
    DecidableEq (Except ε α) := fun a b =>
  match a, b with
  | .ok x, .ok y => decidable_of_iff (x = y) (by simp)
  | .error e, .error e' => decidable_of_iff (e = e') (by simp)
  | .ok _, .error _ => .isFalse (by simp)
  | .error _, .ok _ => .isFalse (by simp)

/-! ## Selection Resolver (`compressor.choose_compression_or_original_file`) -/

/-- `compressor.choose_compression_or_original_file`: decide whether to keep
the compressed temp file or the original, relocate it, and restore the
input's access/modification times on the final output.  `now` is the wall
clock time at which `shutil.copyfile` would run (the timestamps a fresh copy
receives before any `os.utime`). -/
def choose_compression_or_original_file (now : Int) (fs : Fs)
    (input_filename temp_filename output_filename suffix : List Char) :
    Except RunError Fs :=
  if ¬ osPathExists fs input_filename then .error .inputVanished
  else if osPathExists fs output_filename then .error .outputCollision
  else
    let step :=
      if osPathExists fs temp_filename ∧
          osPathGetsize fs temp_filename < osPathGetsize fs input_filename then
        let filename := (splitext output_filename).1
        let ext := (splitext temp_filename).2
        let outputFinal := filename ++ suffix ++ ext
        (shutilMove fs temp_filename outputFinal, outputFinal)
      else
        let fs' := if osPathExists fs temp_filename then osRemove fs temp_filename
                   else fs
        (shutilCopyfile now fs' input_filename output_filename, output_filename)
    match fsLookup step.1 input_filename with
    | none => .error .statFailed
    | some st => .ok (osUtime step.1 step.2 st.atime st.mtime)

end MediaCompressor


namespace MediaCompressor

/-- The final output name computed by the compressed branch of
`choose_compression_or_original_file` (source lines 37-40): the intended
output path with its extension removed, the suffix appended, then the temp
candidate's own extension appended. -/
def resolvedOutputName (out sfx tmp : List Char) : List Char :=
  (splitext out).1 ++ sfx ++ (splitext tmp).2

/-- Compressed branch of the Selection Resolver: a strictly smaller temp
candidate is moved (not copied) to `resolvedOutputName`, with the input's
timestamps restored on it; nothing else changes. -/
theorem choose_resolver_compressed
    (now : Int) (fs : Fs) (inp tmp out sfx : List Char) (fin ft : File)
    (hin : fsLookup fs inp = some fin)
    (hout : fsLookup fs out = none)
    (htmp_ne_inp : tmp ≠ inp)
    (htmp_ne_out : tmp ≠ out)
    (htmp_ne_final : tmp ≠ resolvedOutputName out sfx tmp)
    (hfinal_ne_inp : resolvedOutputName out sfx tmp ≠ inp)
    (ht : fsLookup fs tmp = some ft) (hlt : ft.size < fin.size) :
    ∃ fs', choose_compression_or_original_file now fs inp tmp out sfx = .ok fs' ∧
      fsLookup fs' (resolvedOutputName out sfx tmp) =
        some { content := ft.content, atime := fin.atime, mtime := fin.mtime } ∧
      fsLookup fs' tmp = none ∧
      (out ≠ resolvedOutputName out sfx tmp → fsLookup fs' out = none) ∧
      (∀ q, q ≠ resolvedOutputName out sfx tmp → q ≠ tmp →
        fsLookup fs' q = fsLookup fs q) := by
  have hexin : osPathExists fs inp = true := by simp [osPathExists, hin]
  have hexout : osPathExists fs out = false := by simp [osPathExists, hout]
  · have hextmp : osPathExists fs tmp = true := by simp [osPathExists, ht]
    have hsz : osPathGetsize fs tmp < osPathGetsize fs inp := by
      simpa [osPathGetsize, ht, hin] using hlt
    have hmove_inp :
        fsLookup (shutilMove fs tmp (resolvedOutputName out sfx tmp)) inp = some fin := by
      simp [shutilMove, ht, fsLookup_fsInsert, fsLookup_fsErase,
        hfinal_ne_inp.symm, htmp_ne_inp.symm, hin]
    have hmove_final :
        fsLookup (shutilMove fs tmp (resolvedOutputName out sfx tmp))
          (resolvedOutputName out sfx tmp) = some ft := by
      simp [shutilMove, ht, fsLookup_fsInsert]
    have hstep : choose_compression_or_original_file now fs inp tmp out sfx =
        .ok (osUtime (shutilMove fs tmp (resolvedOutputName out sfx tmp))
          (resolvedOutputName out sfx tmp) fin.atime fin.mtime) := by
      simp only [choose_compression_or_original_file]
      rw [if_neg (by simp [hexin]), if_neg (by simp [hexout]),
        if_pos ⟨hextmp, hsz⟩]
      simp only [resolvedOutputName] at hmove_inp
      simp only [hmove_inp]
      rfl
    refine ⟨_, hstep, ?_, ?_, ?_, ?_⟩
    · simp [osUtime, hmove_final, fsLookup_fsInsert]
    · simp [osUtime, hmove_final, fsLookup_fsInsert, htmp_ne_final,
        shutilMove, ht, fsLookup_fsErase]
    · intro hne
      simp [osUtime, hmove_final, fsLookup_fsInsert, hne,
        shutilMove, ht, fsLookup_fsErase, htmp_ne_out.symm, hout]
    · intro q hq1 hq2
      simp [osUtime, hmove_final, fsLookup_fsInsert, hq1,
        shutilMove, ht, fsLookup_fsErase, hq2]

/-- Passthrough branch of the Selection Resolver: with no temp candidate, or
a candidate at least as large as the input, the candidate (if any) is
deleted and the input is copied byte-for-byte to the originally intended
output path, with the input's timestamps restored on the copy. -/
theorem choose_resolver_passthrough
    (now : Int) (fs : Fs) (inp tmp out sfx : List Char) (fin : File)
    (hin : fsLookup fs inp = some fin)
    (hout : fsLookup fs out = none)
    (htmp_ne_inp : tmp ≠ inp)
    (htmp_ne_out : tmp ≠ out)
    (htm : fsLookup fs tmp = none ∨
      ∃ ft : File, fsLookup fs tmp = some ft ∧ fin.size ≤ ft.size) :
    ∃ fs', choose_compression_or_original_file now fs inp tmp out sfx = .ok fs' ∧
      fsLookup fs' out =
        some { content := fin.content, atime := fin.atime, mtime := fin.mtime } ∧
      fsLookup fs' tmp = none ∧
      (∀ q, q ≠ out → q ≠ tmp → fsLookup fs' q = fsLookup fs q) := by
  have hexin : osPathExists fs inp = true := by simp [osPathExists, hin]
  have hexout : osPathExists fs out = false := by simp [osPathExists, hout]
  have hinp_ne_out : inp ≠ out := fun h => by
    rw [h, hout] at hin; exact Option.noConfusion hin
  · have hnotcond :
        ¬ (osPathExists fs tmp = true ∧
            osPathGetsize fs tmp < osPathGetsize fs inp) := by
      rcases htm with hnone | ⟨ft, ht, hge⟩
      · intro hc
        rw [osPathExists, hnone] at hc
        exact Option.noConfusion ((Option.isSome_iff_exists.mp hc.1).choose_spec)
      · intro hc
        have := hc.2
        rw [osPathGetsize, osPathGetsize, ht, hin] at this
        simp at this
        omega
    -- the filesystem after the conditional temp deletion
    have hfs0 : ∀ q, q ≠ tmp →
        fsLookup (if osPathExists fs tmp = true then osRemove fs tmp else fs) q =
          fsLookup fs q := by
      intro q hq
      by_cases h : osPathExists fs tmp = true <;>
        simp [h, osRemove, fsLookup_fsErase, hq]
    have hfs0tmp :
        fsLookup (if osPathExists fs tmp = true then osRemove fs tmp else fs) tmp =
          none := by
      by_cases h : osPathExists fs tmp = true
      · simp [h, osRemove, fsLookup_fsErase]
      · simp [h]
        rw [osPathExists] at h
        exact Option.not_isSome_iff_eq_none.mp h
    have hfs0in :
        fsLookup (if osPathExists fs tmp = true then osRemove fs tmp else fs) inp =
          some fin := by rw [hfs0 inp htmp_ne_inp.symm, hin]
    have hcopy : shutilCopyfile now
        (if osPathExists fs tmp = true then osRemove fs tmp else fs) inp out =
        fsInsert (if osPathExists fs tmp = true then osRemove fs tmp else fs) out
          { content := fin.content, atime := now, mtime := now } := by
      simp [shutilCopyfile, hfs0in]
    have hstat2 : fsLookup (shutilCopyfile now
        (if osPathExists fs tmp = true then osRemove fs tmp else fs) inp out) inp =
        some fin := by
      rw [hcopy]
      simp [fsLookup_fsInsert, hinp_ne_out, hfs0in]
    have hstep : choose_compression_or_original_file now fs inp tmp out sfx =
        .ok (osUtime (shutilCopyfile now
          (if osPathExists fs tmp = true then osRemove fs tmp else fs) inp out)
          out fin.atime fin.mtime) := by
      simp only [choose_compression_or_original_file]
      rw [if_neg (by simp [hexin]), if_neg (by simp [hexout]),
        if_neg hnotcond]
      simp only [hstat2]
    have hcopy_out : fsLookup (shutilCopyfile now
        (if osPathExists fs tmp = true then osRemove fs tmp else fs) inp out) out =
        some { content := fin.content, atime := now, mtime := now } := by
      rw [hcopy]; simp [fsLookup_fsInsert]
    refine ⟨_, hstep, ?_, ?_, ?_⟩
    · simp [osUtime, hcopy_out, fsLookup_fsInsert]
    · simp only [osUtime, hcopy_out]
      rw [fsLookup_fsInsert, if_neg htmp_ne_out, hcopy,
        fsLookup_fsInsert, if_neg htmp_ne_out, hfs0tmp]
    · intro q hq1 hq2
      simp only [osUtime, hcopy_out]
      rw [fsLookup_fsInsert, if_neg hq1, hcopy, fsLookup_fsInsert, if_neg hq1,
        hfs0 q hq2]

/-- Claim C1 (confirmed): for every processed file, with the input present
and the intended output path free, the Selection Resolver (a) moves — not
copies — a strictly smaller temp candidate to the intended output path with
its extension removed, the suffix appended, and the temp candidate's own
extension appended, leaving no file at the temp path, and (b) otherwise
deletes any temp candidate and copies the input verbatim to the originally
intended output path (original extension preserved). -/
theorem choose_compression_moves_smaller_else_copies_original
    (now : Int) (fs : Fs) (inp tmp out sfx : List Char) (fin : File)
    (hin : fsLookup fs inp = some fin)
    (hout : fsLookup fs out = none)
    (htmp_ne_inp : tmp ≠ inp)
    (htmp_ne_out : tmp ≠ out)
    (htmp_ne_final : tmp ≠ resolvedOutputName out sfx tmp)
    (hfinal_ne_inp : resolvedOutputName out sfx tmp ≠ inp) :
    (∀ ft : File, fsLookup fs tmp = some ft → ft.size < fin.size →
      ∃ fs', choose_compression_or_original_file now fs inp tmp out sfx = .ok fs' ∧
        fsLookup fs' (resolvedOutputName out sfx tmp) =
          some { content := ft.content, atime := fin.atime, mtime := fin.mtime } ∧
        fsLookup fs' tmp = none ∧
        (out ≠ resolvedOutputName out sfx tmp → fsLookup fs' out = none) ∧
        (∀ q, q ≠ resolvedOutputName out sfx tmp → q ≠ tmp →
          fsLookup fs' q = fsLookup fs q)) ∧
    ((fsLookup fs tmp = none ∨
        ∃ ft : File, fsLookup fs tmp = some ft ∧ fin.size ≤ ft.size) →
      ∃ fs', choose_compression_or_original_file now fs inp tmp out sfx = .ok fs' ∧
        fsLookup fs' out =
          some { content := fin.content, atime := fin.atime, mtime := fin.mtime } ∧
        fsLookup fs' tmp = none ∧
        (∀ q, q ≠ out → q ≠ tmp → fsLookup fs' q = fsLookup fs q)) :=
  ⟨fun ft ht hlt =>
      choose_resolver_compressed now fs inp tmp out sfx fin ft hin hout
        htmp_ne_inp htmp_ne_out htmp_ne_final hfinal_ne_inp ht hlt,
   fun htm =>
      choose_resolver_passthrough now fs inp tmp out sfx fin hin hout
        htmp_ne_inp htmp_ne_out htm⟩

/-- Witness for C1 at a concrete filesystem: a 2-byte temp candidate beats a
4-byte input; the result lands at `out/a_C.jpg` with the candidate's bytes
and the input's timestamps, and the temp path is empty afterwards. -/
theorem choose_compression_moves_smaller_witness :
    ∃ fs', choose_compression_or_original_file 99
        [("in/a.jpg".toList, ⟨[0, 1, 2, 3], 10, 20⟩),
         ("tmp/a.jpg".toList, ⟨[0, 1], 30, 40⟩)]
        "in/a.jpg".toList "tmp/a.jpg".toList "out/a.jpg".toList "_C".toList =
        .ok fs' ∧
      fsLookup fs'
          (resolvedOutputName "out/a.jpg".toList "_C".toList "tmp/a.jpg".toList) =
        some ⟨[0, 1], 10, 20⟩ ∧
      fsLookup fs' "tmp/a.jpg".toList = none := by
  obtain ⟨fs', h1, h2, h3, -, -⟩ :=
    (choose_compression_moves_smaller_else_copies_original 99
      [("in/a.jpg".toList, ⟨[0, 1, 2, 3], 10, 20⟩),
       ("tmp/a.jpg".toList, ⟨[0, 1], 30, 40⟩)]
      "in/a.jpg".toList "tmp/a.jpg".toList "out/a.jpg".toList "_C".toList
      ⟨[0, 1, 2, 3], 10, 20⟩ (by decide) (by decide) (by decide) (by decide)
      (by decide) (by decide)).1
      ⟨[0, 1], 30, 40⟩ (by decide) (by decide)
  exact ⟨fs', h1, h2, h3⟩

end MediaCompressor

namespace MediaCompressor

/-- Claim C3 counterexample: with `out/a_C.jpg` (the path the output will
finally occupy: intended path `out/a.jpg`, suffix `_C`, candidate extension
`.jpg`) already present on the filesystem, the resolver does not fail — it
returns successfully and silently overwrites the pre-existing file with the
moved temp candidate.  The per-file existence check only inspects the
pre-suffix path `out/a.jpg`. -/
theorem choose_compression_no_error_on_existing_final_path :
    fsLookup
        [("in/a.jpg".toList, ⟨[0, 1, 2, 3], 1, 2⟩),
         ("tmp/a.jpg".toList, ⟨[0, 1], 3, 4⟩),
         ("out/a_C.jpg".toList, ⟨[9, 9, 9], 5, 6⟩)]
        "out/a_C.jpg".toList = some ⟨[9, 9, 9], 5, 6⟩ ∧
    resolvedOutputName "out/a.jpg".toList "_C".toList "tmp/a.jpg".toList =
      "out/a_C.jpg".toList ∧
    choose_compression_or_original_file 7
        [("in/a.jpg".toList, ⟨[0, 1, 2, 3], 1, 2⟩),
         ("tmp/a.jpg".toList, ⟨[0, 1], 3, 4⟩),
         ("out/a_C.jpg".toList, ⟨[9, 9, 9], 5, 6⟩)]
        "in/a.jpg".toList "tmp/a.jpg".toList "out/a.jpg".toList "_C".toList =
      .ok [("out/a_C.jpg".toList, ⟨[0, 1], 1, 2⟩),
           ("in/a.jpg".toList, ⟨[0, 1, 2, 3], 1, 2⟩)] := by
  refine ⟨by decide, by decide, by decide⟩

/-- Claim C3 (amended): the per-file existence check at resolution time is
made against the originally intended output path (original name and
extension, no suffix): if that path already exists while the input also
exists, the run fails fatally with the collision error, before either
branch executes. -/
theorem choose_compression_errors_on_existing_intended_output
    (now : Int) (fs : Fs) (inp tmp out sfx : List Char)
    (hin : osPathExists fs inp = true)
    (hout : osPathExists fs out = true) :
    choose_compression_or_original_file now fs inp tmp out sfx =
      .error .outputCollision := by
  simp only [choose_compression_or_original_file]
  rw [if_neg (by simp [hin]), if_pos hout]

/-- Witness for the amended C3 at a concrete filesystem. -/
theorem choose_compression_errors_on_existing_intended_output_witness :
    choose_compression_or_original_file 7
        [("in/a.jpg".toList, ⟨[0, 1], 1, 2⟩),
         ("out/a.jpg".toList, ⟨[5], 3, 4⟩)]
        "in/a.jpg".toList "tmp/a.jpg".toList "out/a.jpg".toList "_C".toList =
      .error .outputCollision :=
  choose_compression_errors_on_existing_intended_output 7
    [("in/a.jpg".toList, ⟨[0, 1], 1, 2⟩), ("out/a.jpg".toList, ⟨[5], 3, 4⟩)]
    "in/a.jpg".toList "tmp/a.jpg".toList "out/a.jpg".toList "_C".toList
    (by decide) (by decide)

/-- Claim C10 counterexample: `correct_image_extension_if_needed` is not
idempotent on every temp filename — on the degenerate name `".."` a first
JPEG pass yields `"...jpg"` (whose basename is all dots before `jpg`, so
`splitext` refuses to split it) and a second pass appends `.jpg` again. -/
theorem correct_image_extension_not_idempotent_on_dotdot :
    correct_image_extension_if_needed "JPEG".toList
        (correct_image_extension_if_needed "JPEG".toList "..".toList) ≠
      correct_image_extension_if_needed "JPEG".toList "..".toList := by
  decide

/-- Claim C10 (amended): the extension extracted by
`lowercase_file_extension` is empty or dot-initial, so it never equals the
dot-less literals `"jpg"`/`"png"` and both guards are true on every input;
hence for every temp filename the JPEG result is the stem followed by
`".jpg"` and the PNG result is the stem followed by `".png"`, regardless of
the original extension; the function is idempotent on every temp filename
whose stem's final path component contains a non-dot character (but not on
degenerate all-dot names such as `".."`). -/
theorem correct_image_extension_guards_formula_and_conditional_idempotence :
    (∀ f : List Char,
        lowercase_file_extension f ≠ "jpg".toList ∧
        lowercase_file_extension f ≠ "png".toList) ∧
    (∀ tmp : List Char,
        correct_image_extension_if_needed "JPEG".toList tmp =
          (splitext tmp).1 ++ ".jpg".toList ∧
        correct_image_extension_if_needed "PNG".toList tmp =
          (splitext tmp).1 ++ ".png".toList) ∧
    (∀ tmp : List Char, (∃ c ∈ pathBasename (splitext tmp).1, c ≠ '.') →
        correct_image_extension_if_needed "JPEG".toList
            (correct_image_extension_if_needed "JPEG".toList tmp) =
          correct_image_extension_if_needed "JPEG".toList tmp ∧
        correct_image_extension_if_needed "PNG".toList
            (correct_image_extension_if_needed "PNG".toList tmp) =
          correct_image_extension_if_needed "PNG".toList tmp) :=
  ⟨fun f => ⟨lowercase_file_extension_ne_jpg f, lowercase_file_extension_ne_png f⟩,
   fun tmp => ⟨correct_image_extension_jpeg tmp, correct_image_extension_png tmp⟩,
   fun tmp hb => ⟨correct_image_extension_jpeg_idem tmp hb,
     correct_image_extension_png_idem tmp hb⟩⟩

/-- Witness for the amended C10 at the concrete temp name `"t/a.jpeg"`
(a mis-extensioned JPEG): one pass gives `"t/a.jpg"`, a second pass is
stable. -/
theorem correct_image_extension_conditional_idempotence_witness :
    correct_image_extension_if_needed "JPEG".toList
        (correct_image_extension_if_needed "JPEG".toList "t/a.jpeg".toList) =
      correct_image_extension_if_needed "JPEG".toList "t/a.jpeg".toList :=
  (correct_image_extension_guards_formula_and_conditional_idempotence.2.2
    "t/a.jpeg".toList (by decide)).1

end MediaCompressor

namespace MediaCompressor

/-! ## CLI arguments (`cli_utilities.parse_arguments`) -/

/-- The command line arguments of the compressor (`argparse.Namespace`). -/
structure Args where
  input_directory : List Char
  output_directory : List Char
  temp_directory : List Char
  verbose : Bool
  delete_existing : Bool
  suffix : List Char
  minimum_image_dimension : Nat
  processes : Nat
  jpeg_quality : Nat
  jpeg_subsampling : List Char
  video_codec : List Char
  video_crf : List Char
  maximum_expected_compression : Int
deriving DecidableEq, Repr

/-- `cli_utilities.parse_arguments`: the namespace produced when only the two
required directories are given, with every optional flag at its default
(`DEFAULT_COMPRESSED_FILENAME_TAG = "_RG01COMPRESS"`, `--processes` defaults
to `multiprocessing.cpu_count()`, `--maximum-expected-compression` defaults
to the integer 99). -/
def parse_arguments_defaults (cpu_count : Nat)
    (input_directory output_directory : List Char) : Args :=
  { input_directory := input_directory
    output_directory := output_directory
    temp_directory := "temp_RG01COMPRESS".toList
    verbose := false
    delete_existing := false
    suffix := "_RG01COMPRESS".toList
    minimum_image_dimension := 2160
    processes := cpu_count
    jpeg_quality := 95
    jpeg_subsampling := "4:4:4".toList
    video_codec := "libx265".toList
    video_crf := "24".toList
    maximum_expected_compression := 99 }

/-! ## Compression Dispatcher pool (`compressor.compress_all_files`) -/

/-- The job list `pool_args` built by `compress_all_files` (source line 89):
one `(input_filename, args)` tuple per enumerated file. -/
def compress_all_files_pool_args (args : Args)
    (all_input_files : List (List Char)) : List (List Char × Args) :=
  all_input_files.map (fun fn => (fn, args))

/-- The worker pool size of `compress_all_files` (source line 88): the pool
is opened as `Pool()` — with no `processes` argument — so its size is
`os.cpu_count()`; the parsed `args.processes` value is never passed in. -/
def compress_all_files_pool_size (cpu_count : Nat) (_args : Args) : Nat :=
  cpu_count

/-- Claim C4 (code bug): the dispatcher builds exactly one pool job per
enumerated file and the default worker count is the host CPU count, but the
pool size always equals the host CPU count because `Pool()` is opened
without the `processes` argument: configuring `--processes 1` on an 8-CPU
host still yields a pool of size 8, not the configured worker count. -/
theorem compress_all_files_pool_ignores_configured_processes :
    (∀ (cpu_count : Nat) (args : Args) (files : List (List Char)),
      (compress_all_files_pool_args args files).length = files.length ∧
      compress_all_files_pool_size cpu_count args = cpu_count) ∧
    (parse_arguments_defaults 8 "in".toList "out".toList).processes = 8 ∧
    compress_all_files_pool_size 8
        { parse_arguments_defaults 8 "in".toList "out".toList with
            processes := 1 } = 8 ∧
    (8 : Nat) ≠
      ({ parse_arguments_defaults 8 "in".toList "out".toList with
          processes := 1 } : Args).processes := by
  refine ⟨fun cpu_count args files => ⟨by simp [compress_all_files_pool_args], rfl⟩,
    rfl, rfl, by decide⟩

/-! ## Consistency Verifier per-pair size check
(`compressor.verify_compression_consistency`, lines 125-128) -/

/-- The per-pair size check of `verify_compression_consistency`:
`compression_rate = 1 - output_size / input_size` (Python 3 true division,
modelled exactly over `ℚ`), raising an uncaught `ZeroDivisionError` when the
input size is zero, and the "unrealistic compression rate" `RuntimeError`
when the rate exceeds `args.maximum_expected_compression`. -/
def verifyPairSizeCheck (maximum_expected_compression : Int)
    (input_size output_size : Nat) : Except RunError Unit :=
  if input_size = 0 then .error .zeroDivisionError
  else
    let compression_rate : ℚ := 1 - (output_size : ℚ) / (input_size : ℚ)
    if compression_rate > (maximum_expected_compression : ℚ) then
      .error .unrealisticCompression
    else
      .ok ()

/-- Claim C2 (code bug): under the default configuration
(`maximum_expected_compression = 99`) the sanity ceiling can never fire for
any positive input size: the computed rate is a fraction of at most 1 while
the ceiling is the integer percentage 99, so even a zero-byte output file
(for instance from a 1000-byte input) passes the check as `.ok` instead of
failing fatally. -/
theorem verify_ceiling_never_fires_under_default :
    (∀ input_size output_size : Nat, 0 < input_size →
      verifyPairSizeCheck
        (parse_arguments_defaults 8 "in".toList "out".toList).maximum_expected_compression
        input_size output_size = .ok ()) ∧
    verifyPairSizeCheck
      (parse_arguments_defaults 8 "in".toList "out".toList).maximum_expected_compression
      1000 0 = .ok () := by
  have hmain : ∀ input_size output_size : Nat, 0 < input_size →
      verifyPairSizeCheck 99 input_size output_size = .ok () := by
    intro input_size output_size hpos
    have hne : input_size ≠ 0 := Nat.pos_iff_ne_zero.mp hpos
    have hnonneg : (0 : ℚ) ≤ (output_size : ℚ) / (input_size : ℚ) :=
      div_nonneg (Nat.cast_nonneg _) (Nat.cast_nonneg _)
    have hle : ¬ (1 - (output_size : ℚ) / (input_size : ℚ) > (99 : ℚ)) := by
      intro h
      nlinarith
    simp only [verifyPairSizeCheck, if_neg hne]
    rw [if_neg (by exact_mod_cast hle)]
  exact ⟨hmain, hmain 1000 0 (by decide)⟩

/-- Witness for C2 at another concrete pair: a 4096-byte input compressed to
0 bytes (a rate of 100 percent) is accepted under the default ceiling. -/
theorem verify_ceiling_never_fires_under_default_witness :
    verifyPairSizeCheck
      (parse_arguments_defaults 8 "in".toList "out".toList).maximum_expected_compression
      4096 0 = .ok () :=
  verify_ceiling_never_fires_under_default.1 4096 0 (by decide)

/-- Claim C9 (confirmed): the rate computation divides the output size by
the input size with no zero guard — a zero-sized input pair raises the
uncaught `ZeroDivisionError` rather than the clean fatal `RuntimeError`
report — and a positive input size is exactly the precondition under which
the check is total (never that error). -/
theorem verify_pair_division_by_zero_on_empty_input :
    (∀ (m : Int) (output_size : Nat),
      verifyPairSizeCheck m 0 output_size = .error .zeroDivisionError ∧
      verifyPairSizeCheck m 0 output_size ≠ .error .unrealisticCompression) ∧
    (∀ (m : Int) (input_size output_size : Nat), 0 < input_size →
      verifyPairSizeCheck m input_size output_size ≠ .error .zeroDivisionError) := by
  constructor
  · intro m output_size
    constructor
    · simp [verifyPairSizeCheck]
    · simp [verifyPairSizeCheck]
  · intro m input_size output_size hpos
    have hne : input_size ≠ 0 := Nat.pos_iff_ne_zero.mp hpos
    simp only [verifyPairSizeCheck, if_neg hne]
    split <;> simp

/-- Witness for C9 at concrete pairs: input size 0 raises the division
error; input size 5 never does. -/
theorem verify_pair_division_by_zero_witness :
    verifyPairSizeCheck 99 0 5 = .error .zeroDivisionError ∧
    verifyPairSizeCheck 99 5 5 ≠ .error .zeroDivisionError :=
  ⟨(verify_pair_division_by_zero_on_empty_input.1 99 5).1,
    verify_pair_division_by_zero_on_empty_input.2 99 5 5 (by decide)⟩

end MediaCompressor

namespace MediaCompressor

/-! ## Codec Adapter (`compression_utilities.py`)

The codec payloads — Pillow's format sniffing and `im.save`, and the
`ffmpeg` subprocess — are external collaborators (specification sections 1
and 6).  They are modelled as an oracle; the surrounding orchestration
(extension correction, temp-file bookkeeping, failure cleanup) is translated
from the source. -/

/-- The external codec collaborators.  `image_format` is Pillow's
content-based format detection (`Image.open(...).format`); `save_jpeg` /
`save_png` produce the file `im.save` writes at the temp path (resize,
quality, subsampling and EXIF handling folded in, as configured by the CLI
arguments the oracle closes over); `ffmpeg` maps the input file (or `none`
for a missing path) to the subprocess returncode and the file written at
the temp path (or `none` when nothing was written). -/
structure Codec where
  image_format : File → List Char
  save_jpeg : File → File
  save_png : File → File
  ffmpeg : Option File → Nat × Option File

/-- `compressor.py` line 12: `IMPLEMENTED_IMAGE_FORMATS`. -/
def IMPLEMENTED_IMAGE_FORMATS : List (List Char) :=
  [".jpg".toList, ".jpeg".toList, ".png".toList]

/-- `compressor.py` line 13: `IMPLEMENTED_VIDEO_FORMATS`. -/
def IMPLEMENTED_VIDEO_FORMATS : List (List Char) :=
  [".mp4".toList, ".mov".toList, ".3gp".toList]

/-- `compression_utilities.compress_image`: open the input (uncaught
exception if it is missing), correct the temp extension from the detected
format, save with the JPEG or PNG profile (or skip saving entirely for
other detected formats), and return the possibly-corrected temp name. -/
def compress_image (codec : Codec) (fs : Fs)
    (input_filename temp_filename : List Char) :
    Except RunError (Fs × List Char) :=
  match fsLookup fs input_filename with
  | none => .error .imageOpenFailed
  | some im =>
    let temp' := correct_image_extension_if_needed (codec.image_format im)
      temp_filename
    if codec.image_format im = "JPEG".toList then
      .ok (fsInsert fs temp' (codec.save_jpeg im), temp')
    else if codec.image_format im = "PNG".toList then
      .ok (fsInsert fs temp' (codec.save_png im), temp')
    else
      .ok (fs, temp')

/-- `compression_utilities.correct_video_extension`: force the `.mp4`
container. -/
def correct_video_extension (temp_filename : List Char) : List Char :=
  (splitext temp_filename).1 ++ ".mp4".toList

/-- `compression_utilities.compress_video`: correct the temp extension to
`.mp4`, run the ffmpeg subprocess (which writes at most the temp path), and
on a non-zero returncode remove the temp file if it exists; the corrected
temp name is returned either way and no exception is raised. -/
def compress_video (codec : Codec) (fs : Fs)
    (input_filename temp_filename : List Char) : Fs × List Char :=
  let temp' := correct_video_extension temp_filename
  let result := codec.ffmpeg (fsLookup fs input_filename)
  let fs₁ := match result.2 with
    | some w => fsInsert fs temp' w
    | none => fs
  if result.1 ≠ 0 then (osRemove fs₁ temp', temp') else (fs₁, temp')

/-- `compressor.compress_single_file`: skip paths that are not regular
files, compute temp/output paths by substituting the input root, copy
unrecognized extensions straight to the output (no timestamp restoration),
otherwise run the matching codec profile and hand the possibly-corrected
temp name to the Selection Resolver. -/
def compress_single_file (codec : Codec) (now : Int) (args : Args)
    (fs : Fs) (input_filename : List Char) : Except RunError Fs :=
  if ¬ osPathExists fs input_filename then .ok fs
  else
    let rel := osPathRelpath input_filename args.input_directory
    let temp_filename := osPathJoin args.temp_directory rel
    let output_filename := osPathJoin args.output_directory rel
    let claimed := lowercase_file_extension input_filename
    if ¬ (claimed ∈ IMPLEMENTED_IMAGE_FORMATS ∨
          claimed ∈ IMPLEMENTED_VIDEO_FORMATS) then
      .ok (shutilCopyfile now fs input_filename output_filename)
    else
      match (if claimed ∈ IMPLEMENTED_IMAGE_FORMATS then
               compress_image codec fs input_filename temp_filename
             else
               .ok (compress_video codec fs input_filename temp_filename)) with
      | .error e => .error e
      | .ok (fs₁, temp') =>
        choose_compression_or_original_file now fs₁ input_filename temp'
          output_filename args.suffix

/-- Claim C5 (code bug): the Selection Resolver restores the input's
timestamps on compressed, passthrough and failed-codec outputs, but the
unrecognized-extension path of `compress_single_file` copies without any
`os.utime`: for the unrecognized file `in/c.txt` with modification time 20,
processed at time 200 (for any codec oracle), the output `out/c.txt`
carries access/modification time 200, not the input's 10/20. -/
theorem compress_single_file_unrecognized_drops_timestamps :
    ∀ codec : Codec,
      compress_single_file codec 200
          (parse_arguments_defaults 8 "in".toList "out".toList)
          [("in/c.txt".toList, ⟨[1, 2, 3], 10, 20⟩)] "in/c.txt".toList =
        .ok [("out/c.txt".toList, ⟨[1, 2, 3], 200, 200⟩),
             ("in/c.txt".toList, ⟨[1, 2, 3], 10, 20⟩)] ∧
      ((⟨[1, 2, 3], 200, 200⟩ : File).mtime ≠ (⟨[1, 2, 3], 10, 20⟩ : File).mtime ∧
       (⟨[1, 2, 3], 200, 200⟩ : File).atime ≠ (⟨[1, 2, 3], 10, 20⟩ : File).atime) :=
  fun _ => ⟨rfl, by decide, by decide⟩

/-- Claim C6 (confirmed): when the ffmpeg invocation exits non-zero,
`compress_video` returns normally (no exception aborts the run) with the
corrected temp name, the temp candidate does not exist afterwards, and the
Selection Resolver falls back to passthrough: the output holds the input's
bytes under the original, unsuffixed output name. -/
theorem compress_video_failure_falls_back_to_passthrough
    (codec : Codec) (now : Int) (fs : Fs) (inp tmp out sfx : List Char)
    (fin : File)
    (hin : fsLookup fs inp = some fin)
    (hout : fsLookup fs out = none)
    (hrc : (codec.ffmpeg (fsLookup fs inp)).1 ≠ 0)
    (htmp_ne_inp : correct_video_extension tmp ≠ inp)
    (htmp_ne_out : correct_video_extension tmp ≠ out) :
    (compress_video codec fs inp tmp).2 = correct_video_extension tmp ∧
    fsLookup (compress_video codec fs inp tmp).1 (correct_video_extension tmp) =
      none ∧
    ∃ fs', choose_compression_or_original_file now
        (compress_video codec fs inp tmp).1 inp
        (compress_video codec fs inp tmp).2 out sfx = .ok fs' ∧
      fsLookup fs' out =
        some { content := fin.content, atime := fin.atime, mtime := fin.mtime } ∧
      fsLookup fs' (correct_video_extension tmp) = none := by
  have hsnd : (compress_video codec fs inp tmp).2 = correct_video_extension tmp := by
    simp only [compress_video]
    split <;> rfl
  have hfst : (compress_video codec fs inp tmp).1 =
      osRemove (match (codec.ffmpeg (fsLookup fs inp)).2 with
        | some w => fsInsert fs (correct_video_extension tmp) w
        | none => fs) (correct_video_extension tmp) := by
    simp only [compress_video]
    rw [if_pos hrc]
  have hgone :
      fsLookup (compress_video codec fs inp tmp).1 (correct_video_extension tmp) =
        none := by
    rw [hfst]
    simp [osRemove, fsLookup_fsErase]
  have hother : ∀ q, q ≠ correct_video_extension tmp →
      fsLookup (compress_video codec fs inp tmp).1 q = fsLookup fs q := by
    intro q hq
    rw [hfst]
    cases hfm : (codec.ffmpeg (fsLookup fs inp)).2 with
    | none => simp [osRemove, fsLookup_fsErase, hq]
    | some w => simp [osRemove, fsLookup_fsErase, hq, fsLookup_fsInsert]
  have hin' : fsLookup (compress_video codec fs inp tmp).1 inp = some fin := by
    rw [hother inp (fun h => htmp_ne_inp h.symm), hin]
  have hout' : fsLookup (compress_video codec fs inp tmp).1 out = none := by
    rw [hother out (fun h => htmp_ne_out h.symm), hout]
  refine ⟨hsnd, hgone, ?_⟩
  rw [hsnd]
  obtain ⟨fs', hok, hcopy, htgone, hframe⟩ :=
    choose_resolver_passthrough now (compress_video codec fs inp tmp).1 inp
      (correct_video_extension tmp) out sfx fin hin' hout' htmp_ne_inp
      htmp_ne_out (Or.inl hgone)
  exact ⟨fs', hok, hcopy, htgone⟩

/-- Witness for C6 at a concrete filesystem and codec: ffmpeg exits 1 after
writing a partial `tmp/v.mp4`; the partial file is removed and `out/v.mov`
receives the original bytes and timestamps. -/
theorem compress_video_failure_falls_back_witness :
    ∃ fs', choose_compression_or_original_file 50
        (compress_video
          ⟨fun _ => "JPEG".toList, id, id, fun _ => (1, some ⟨[7], 0, 0⟩)⟩
          [("in/v.mov".toList, ⟨[1, 2, 3, 4], 10, 20⟩)]
          "in/v.mov".toList "tmp/v.mov".toList).1
        "in/v.mov".toList
        (compress_video
          ⟨fun _ => "JPEG".toList, id, id, fun _ => (1, some ⟨[7], 0, 0⟩)⟩
          [("in/v.mov".toList, ⟨[1, 2, 3, 4], 10, 20⟩)]
          "in/v.mov".toList "tmp/v.mov".toList).2
        "out/v.mov".toList "_C".toList = .ok fs' ∧
      fsLookup fs' "out/v.mov".toList = some ⟨[1, 2, 3, 4], 10, 20⟩ := by
  obtain ⟨-, -, fs', hok, hcopy, -⟩ :=
    compress_video_failure_falls_back_to_passthrough
      ⟨fun _ => "JPEG".toList, id, id, fun _ => (1, some ⟨[7], 0, 0⟩)⟩ 50
      [("in/v.mov".toList, ⟨[1, 2, 3, 4], 10, 20⟩)]
      "in/v.mov".toList "tmp/v.mov".toList "out/v.mov".toList "_C".toList
      ⟨[1, 2, 3, 4], 10, 20⟩ (by decide) (by decide) (by decide) (by decide)
      (by decide)
  exact ⟨fs', hok, hcopy⟩

end MediaCompressor

namespace MediaCompressor

/-! ## File enumeration: `glob.glob(os.path.join(root, "**"), recursive=True)` -/

/-- Split a relative path into its `'/'`-separated components. -/
def splitOnSlash (p : List Char) : List (List Char) :=
  match p with
  | [] => [[]]
  | c :: rest =>
    match splitOnSlash rest with
    | [] => [[]]
    | h :: t => if c = '/' then [] :: h :: t else (c :: h) :: t

/-- Python `glob` hidden-file rule: a pattern without an explicit leading
dot (such as `**`) never matches a path component that starts with `'.'`. -/
def globVisible (rel : List Char) : Bool :=
  (splitOnSlash rel).all (fun comp => comp.head? ≠ some '.')

/-- A directory tree on disk: relative paths of the regular files and of
the subdirectories beneath a root. -/
structure DirTree where
  files : List (List Char)
  dirs : List (List Char)
deriving DecidableEq, Repr

/-- `glob.glob(os.path.join(root, "**"), recursive=True)` (`compressor.py`
lines 152 and 170): the zero-segment match of `**` yields the root itself
with a trailing separator, and every non-hidden file and directory beneath
it appears as a root-prefixed path.  (The on-disk traversal order is
filesystem dependent; none of the properties proved below depend on it.) -/
def glob_recursive (root : List Char) (t : DirTree) : List (List Char) :=
  (root ++ ['/']) :: ((t.dirs ++ t.files).filter globVisible).map (osPathJoin root)

/-- Modelled from the spec (section 4.2, File Enumerator): "recursively
lists every path under the input root; returns the subset that are regular
files, each as a path relative to the input root."  The source has no such
separate component — the main script hands the raw glob result downstream —
so this definition follows the spec's words, for comparison. -/
def spec_file_enumerator (t : DirTree) : List (List Char) :=
  t.files

/-- Claim C8 counterexample: for input root `"a"` holding regular files
`b.txt`, `sub/c.txt`, `.h.txt` and subdirectory `sub`, the enumerated list
handed to the Collision Detector, Dispatcher and Verifier is the raw
recursive glob: it contains the root `"a/"` and the directory `"a/sub"`
(not regular files), its entries are root-prefixed rather than relative
(the relative file path `"b.txt"` is absent), and the hidden regular file
`.h.txt` is missing entirely — while the spec's File Enumerator returns
exactly the relative regular-file paths. -/
theorem glob_enumeration_is_not_relative_regular_files :
    ("a/".toList ∈ glob_recursive "a".toList
        ⟨["b.txt".toList, "sub/c.txt".toList, ".h.txt".toList], ["sub".toList]⟩) ∧
    ("a/sub".toList ∈ glob_recursive "a".toList
        ⟨["b.txt".toList, "sub/c.txt".toList, ".h.txt".toList], ["sub".toList]⟩) ∧
    ("b.txt".toList ∉ glob_recursive "a".toList
        ⟨["b.txt".toList, "sub/c.txt".toList, ".h.txt".toList], ["sub".toList]⟩) ∧
    ("a/.h.txt".toList ∉ glob_recursive "a".toList
        ⟨["b.txt".toList, "sub/c.txt".toList, ".h.txt".toList], ["sub".toList]⟩) ∧
    glob_recursive "a".toList
        ⟨["b.txt".toList, "sub/c.txt".toList, ".h.txt".toList], ["sub".toList]⟩ ≠
      spec_file_enumerator
        ⟨["b.txt".toList, "sub/c.txt".toList, ".h.txt".toList], ["sub".toList]⟩ := by
  refine ⟨by decide, by decide, by decide, by decide, by decide⟩

/-- Claim C8 (amended): the enumerated list handed downstream is the raw
recursive glob of the input root: it contains the root itself (with a
trailing separator) and exactly the non-hidden files and directories
beneath it, each as a root-prefixed (not relative) path; regular files are
filtered out only later, at each consumer. -/
theorem glob_enumeration_characterization (root : List Char) (t : DirTree) :
    (root ++ ['/'] ∈ glob_recursive root t) ∧
    (∀ rel, rel ∈ t.files → globVisible rel = true →
      osPathJoin root rel ∈ glob_recursive root t) ∧
    (∀ rel, rel ∈ t.dirs → globVisible rel = true →
      osPathJoin root rel ∈ glob_recursive root t) ∧
    (∀ p, p ∈ glob_recursive root t → p = root ++ ['/'] ∨
      ∃ rel, (rel ∈ t.dirs ∨ rel ∈ t.files) ∧ globVisible rel = true ∧
        p = osPathJoin root rel) := by
  refine ⟨by simp [glob_recursive], ?_, ?_, ?_⟩
  · intro rel hmem hvis
    simp only [glob_recursive, List.mem_cons, List.mem_map]
    right
    exact ⟨rel, List.mem_filter.mpr ⟨List.mem_append.mpr (Or.inr hmem), hvis⟩, rfl⟩
  · intro rel hmem hvis
    simp only [glob_recursive, List.mem_cons, List.mem_map]
    right
    exact ⟨rel, List.mem_filter.mpr ⟨List.mem_append.mpr (Or.inl hmem), hvis⟩, rfl⟩
  · intro p hp
    simp only [glob_recursive, List.mem_cons, List.mem_map] at hp
    rcases hp with hp | ⟨rel, hrel, hjoin⟩
    · exact Or.inl hp
    · right
      obtain ⟨hmem, hvis⟩ := List.mem_filter.mp hrel
      exact ⟨rel, List.mem_append.mp hmem, hvis, hjoin.symm⟩

/-- Witness for the amended C8 at the concrete tree used in the
counterexample: the visible file `b.txt` appears as `a/b.txt` and the
directory `sub` appears as `a/sub`. -/
theorem glob_enumeration_characterization_witness :
    osPathJoin "a".toList "b.txt".toList ∈ glob_recursive "a".toList
      ⟨["b.txt".toList, "sub/c.txt".toList, ".h.txt".toList], ["sub".toList]⟩ ∧
    osPathJoin "a".toList "sub".toList ∈ glob_recursive "a".toList
      ⟨["b.txt".toList, "sub/c.txt".toList, ".h.txt".toList], ["sub".toList]⟩ :=
  ⟨(glob_enumeration_characterization "a".toList
      ⟨["b.txt".toList, "sub/c.txt".toList, ".h.txt".toList], ["sub".toList]⟩).2.1
      "b.txt".toList (by decide) (by decide),
   (glob_enumeration_characterization "a".toList
      ⟨["b.txt".toList, "sub/c.txt".toList, ".h.txt".toList], ["sub".toList]⟩).2.2.1
      "sub".toList (by decide) (by decide)⟩

end MediaCompressor

namespace MediaCompressor

/-! ## Temp Reclaimer (`compressor.clean_up_temp_directory`) and the
temp-tree-drained invariant -/

/-- Whether `p` lies strictly under the directory `root`. -/
def isUnderRoot (root p : List Char) : Bool := (root ++ ['/']).isPrefixOf p

/-- The file list computed by `clean_up_temp_directory` (source line 135):
`filter(os.path.isfile, glob.glob(os.path.join(temp, "**"), recursive=True))`
— the regular files under the temp root whose relative path has no hidden
component (glob's dot-file rule, as in `glob_recursive`). -/
def glob_temp_files (fs : Fs) (temp_directory : List Char) : List (List Char) :=
  (fs.map Prod.fst).filter (fun p => isUnderRoot temp_directory p &&
    globVisible (p.drop (temp_directory.length + 1)))

/-- `compressor.clean_up_temp_directory`: raise if the glob finds any
remaining file, else `shutil.rmtree` the temp root. -/
def clean_up_temp_directory (fs : Fs) (temp_directory : List Char) :
    Except RunError Fs :=
  if (glob_temp_files fs temp_directory).length ≠ 0 then
    .error .tempDirectoryNotEmpty
  else
    .ok (fs.filter (fun e => ¬ isUnderRoot temp_directory e.1))

/-- Sequential model of the dispatch loop of `compress_all_files`: each
worker owns disjoint temp/output paths (specification section 5), so the
fold order is immaterial to the filesystem facts proved below. -/
def compress_all_files_run (codec : Codec) (now : Int) (args : Args)
    (all_input_files : List (List Char)) (fs : Fs) : Except RunError Fs :=
  all_input_files.foldlM
    (fun acc fn => compress_single_file codec now args acc fn) fs

/-! ### Helper lemmas -/

theorem takeWhile_eq_self_of_all {α : Type} (p : α → Bool) (l : List α)
    (h : ∀ a ∈ l, p a) : l.takeWhile p = l := by
  induction l with
  | nil => simp
  | cons a t ih =>
    have ha : p a = true := h a (by simp)
    simp [List.takeWhile_cons, ha, ih fun b hb => h b (by simp [hb])]

theorem dropWhile_eq_nil_of_all {α : Type} (p : α → Bool) (l : List α)
    (h : ∀ a ∈ l, p a) : l.dropWhile p = [] := by
  induction l with
  | nil => simp
  | cons a t ih =>
    have ha : p a = true := h a (by simp)
    simp [List.dropWhile_cons, ha, ih fun b hb => h b (by simp [hb])]

theorem pathBasename_slash_append (a b : List Char) :
    pathBasename (a ++ '/' :: b) = pathBasename b := by
  unfold pathBasename
  rw [show (a ++ '/' :: b).reverse = b.reverse ++ '/' :: a.reverse by simp]
  by_cases hall : ∀ c ∈ b.reverse, (fun x => decide (x ≠ '/')) c = true
  · rw [takeWhile_append_of_all _ _ _ hall,
      takeWhile_eq_self_of_all _ _ hall]
    simp [List.takeWhile_cons]
  · rw [takeWhile_append_of_not_all _ _ _ hall]

theorem pathDirname_slash_append (a b : List Char) :
    pathDirname (a ++ '/' :: b) = a ++ '/' :: pathDirname b := by
  unfold pathDirname
  rw [show (a ++ '/' :: b).reverse = b.reverse ++ '/' :: a.reverse by simp]
  by_cases hall : ∀ c ∈ b.reverse, (fun x => decide (x ≠ '/')) c = true
  · rw [dropWhile_append_of_all _ _ _ hall,
      dropWhile_eq_nil_of_all _ _ hall]
    simp [List.dropWhile_cons]
  · rw [dropWhile_append_of_not_all _ _ _ hall]
    simp

theorem splitext_slash_append (a b : List Char) :
    splitext (a ++ '/' :: b) =
      (a ++ '/' :: (splitext b).1, (splitext b).2) := by
  unfold splitext
  rw [pathBasename_slash_append, pathDirname_slash_append]
  simp

/-- Two prefixes of the same list are comparable. -/
theorem prefix_comparable {α : Type} {l₁ l₂ l₃ : List α}
    (h1 : l₁ <+: l₃) (h2 : l₂ <+: l₃) : l₁ <+: l₂ ∨ l₂ <+: l₁ := by
  rcases Nat.le_total l₁.length l₂.length with h | h
  · left
    have e1 := List.prefix_iff_eq_take.mp h1
    have e2 := List.prefix_iff_eq_take.mp h2
    have : l₁ = l₂.take l₁.length := by
      rw [e2, List.take_take, Nat.min_eq_left h, ← e1]
    rw [this]
    exact List.take_prefix _ _
  · right
    have e1 := List.prefix_iff_eq_take.mp h1
    have e2 := List.prefix_iff_eq_take.mp h2
    have : l₂ = l₁.take l₂.length := by
      rw [e1, List.take_take, Nat.min_eq_left h, ← e2]
    rw [this]
    exact List.take_prefix _ _

/-- A path prefixed by a root incompatible with the temp root is not under
the temp root. -/
theorem isUnderRoot_eq_false_of_prefix (tempR outR p : List Char)
    (h1 : ¬ tempR ++ ['/'] <+: outR ++ ['/'])
    (h2 : ¬ outR ++ ['/'] <+: tempR ++ ['/'])
    (hp : outR ++ ['/'] <+: p) :
    isUnderRoot tempR p = false := by
  by_contra hc
  have ht : (tempR ++ ['/']).isPrefixOf p = true := by
    simpa [isUnderRoot] using hc
  rcases prefix_comparable (List.isPrefixOf_iff_prefix.mp ht) hp with h | h
  · exact h1 h
  · exact h2 h

theorem prefix_osPathJoin (root rel : List Char) :
    root ++ ['/'] <+: osPathJoin root rel :=
  ⟨rel, by simp [osPathJoin]⟩

theorem prefix_resolvedOutputName (root rel sfx T : List Char) :
    root ++ ['/'] <+: resolvedOutputName (osPathJoin root rel) sfx T := by
  unfold resolvedOutputName osPathJoin
  rw [show root ++ '/' :: rel = root ++ '/' :: rel from rfl, splitext_slash_append]
  exact ⟨(splitext rel).1 ++ sfx ++ (splitext T).2, by simp⟩

theorem fsLookup_isSome_of_mem (fs : Fs) (e : List Char × File) (he : e ∈ fs) :
    (fsLookup fs e.1).isSome := by
  induction fs with
  | nil => cases he
  | cons a rest ih =>
    obtain ⟨k, v⟩ := a
    rw [List.mem_cons] at he
    rcases he with rfl | he
    · simp [fsLookup]
    · by_cases h : k = e.1 <;> simp [fsLookup, h, ih he]

theorem fsLookup_osUtime_ne (fs : Fs) (t p : List Char) (a m : Int)
    (h : p ≠ t) : fsLookup (osUtime fs t a m) p = fsLookup fs p := by
  unfold osUtime
  cases fsLookup fs t <;> simp [fsLookup_fsInsert, h]

end MediaCompressor

namespace MediaCompressor

/-- Frame property of a successful Selection Resolver call: at any path
other than the intended output and the resolved final name, the result is
the input filesystem with the temp candidate erased. -/
theorem choose_resolver_result_lookup (now : Int) (fs : Fs)
    (inp T out sfx : List Char) (fs' : Fs) (p : List Char)
    (h : choose_compression_or_original_file now fs inp T out sfx = .ok fs')
    (hpout : p ≠ out) (hpfinal : p ≠ resolvedOutputName out sfx T) :
    fsLookup fs' p = if p = T then none else fsLookup fs p := by
  have hpfinal' : p ≠ (splitext out).1 ++ sfx ++ (splitext T).2 := hpfinal
  have hpfinal2 : p ≠ (splitext out).1 ++ (sfx ++ (splitext T).2) := by
    simpa [List.append_assoc] using hpfinal'
  simp only [choose_compression_or_original_file] at h
  split at h
  · simp at h
  · split at h
    · simp at h
    · by_cases hc : osPathExists fs T = true ∧
          osPathGetsize fs T < osPathGetsize fs inp
      · rw [if_pos hc] at h
        obtain ⟨ft, hft⟩ := Option.isSome_iff_exists.mp hc.1
        cases hstat : fsLookup
            (shutilMove fs T ((splitext out).1 ++ sfx ++ (splitext T).2)) inp with
        | none => rw [hstat] at h; simp at h
        | some st =>
          rw [hstat] at h
          simp only [Except.ok.injEq] at h
          subst h
          rw [fsLookup_osUtime_ne _ _ _ _ _ hpfinal']
          by_cases hpT : p = T
          · subst hpT
            simp [shutilMove, hft, fsLookup_fsInsert, hpfinal', hpfinal2,
              fsLookup_fsErase]
          · simp [shutilMove, hft, fsLookup_fsInsert, hpfinal', hpfinal2,
              fsLookup_fsErase, hpT]
      · rw [if_neg hc] at h
        cases hstat : fsLookup (shutilCopyfile now
            (if osPathExists fs T = true then osRemove fs T else fs) inp out)
            inp with
        | none => rw [hstat] at h; simp at h
        | some st =>
          rw [hstat] at h
          simp only [Except.ok.injEq] at h
          subst h
          rw [fsLookup_osUtime_ne _ _ _ _ _ hpout]
          have hcopy : ∀ q, q ≠ out → fsLookup (shutilCopyfile now
              (if osPathExists fs T = true then osRemove fs T else fs) inp out) q =
              fsLookup (if osPathExists fs T = true then osRemove fs T else fs) q := by
            intro q hq
            unfold shutilCopyfile
            cases fsLookup (if osPathExists fs T = true then osRemove fs T else fs)
                inp with
            | none => rfl
            | some f => simp [fsLookup_fsInsert, hq]
          rw [hcopy p hpout]
          by_cases hex : osPathExists fs T = true
          · by_cases hpT : p = T <;>
              simp [hex, osRemove, fsLookup_fsErase, hpT]
          · have hTnone : fsLookup fs T = none := by
              rw [osPathExists] at hex
              exact Option.not_isSome_iff_eq_none.mp hex
            by_cases hpT : p = T
            · subst hpT; simp [hex, hTnone]
            · simp [hex, hpT]

/-- Frame property of `compress_image`: a successful call changes the
filesystem at most at the returned temp name. -/
theorem compress_image_eq_of_lookup (codec : Codec) (fs : Fs)
    (i t : List Char) (im : File) (him : fsLookup fs i = some im) :
    compress_image codec fs i t =
      (if codec.image_format im = "JPEG".toList then
        .ok (fsInsert fs
          (correct_image_extension_if_needed (codec.image_format im) t)
          (codec.save_jpeg im),
          correct_image_extension_if_needed (codec.image_format im) t)
      else if codec.image_format im = "PNG".toList then
        .ok (fsInsert fs
          (correct_image_extension_if_needed (codec.image_format im) t)
          (codec.save_png im),
          correct_image_extension_if_needed (codec.image_format im) t)
      else
        .ok (fs, correct_image_extension_if_needed (codec.image_format im) t)) := by
  unfold compress_image
  rw [him]

theorem compress_image_frame (codec : Codec) (fs : Fs) (i t : List Char)
    (fs₁ : Fs) (T : List Char)
    (h : compress_image codec fs i t = .ok (fs₁, T)) :
    ∀ p, p ≠ T → fsLookup fs₁ p = fsLookup fs p := by
  intro p hp
  cases him : fsLookup fs i with
  | none =>
    have : compress_image codec fs i t = .error .imageOpenFailed := by
      unfold compress_image; rw [him]
    rw [this] at h
    simp at h
  | some im =>
    rw [compress_image_eq_of_lookup codec fs i t im him] at h
    by_cases hj : codec.image_format im = "JPEG".toList
    · rw [if_pos hj] at h
      simp only [Except.ok.injEq, Prod.mk.injEq] at h
      obtain ⟨h1, h2⟩ := h
      subst h1; subst h2
      simp [fsLookup_fsInsert, hp]
    · rw [if_neg hj] at h
      by_cases hpn : codec.image_format im = "PNG".toList
      · rw [if_pos hpn] at h
        simp only [Except.ok.injEq, Prod.mk.injEq] at h
        obtain ⟨h1, h2⟩ := h
        subst h1; subst h2
        simp [fsLookup_fsInsert, hp]
      · rw [if_neg hpn] at h
        simp only [Except.ok.injEq, Prod.mk.injEq] at h
        obtain ⟨h1, h2⟩ := h
        subst h1
        rfl

/-- The temp name returned by `compress_video` is always the `.mp4`-forced
one. -/
theorem compress_video_snd (codec : Codec) (fs : Fs) (i t : List Char) :
    (compress_video codec fs i t).2 = correct_video_extension t := by
  simp only [compress_video]
  split <;> rfl

/-- Frame property of `compress_video`: the filesystem changes at most at
the corrected temp name. -/
theorem compress_video_frame (codec : Codec) (fs : Fs) (i t p : List Char)
    (hp : p ≠ correct_video_extension t) :
    fsLookup (compress_video codec fs i t).1 p = fsLookup fs p := by
  simp only [compress_video]
  rcases codec.ffmpeg (fsLookup fs i) with ⟨rc, written⟩
  cases written <;> by_cases hrc : rc ≠ 0 <;>
    simp [hrc, osRemove, fsLookup_fsErase, fsLookup_fsInsert, hp]

end MediaCompressor

namespace MediaCompressor

/-- Processing one file preserves "no file under the temp root": whatever
the codec writes at its temp path, the Selection Resolver removes it again,
and every other write lands under the output root, which is
prefix-incompatible with the temp root. -/
theorem compress_single_file_preserves_empty_temp
    (codec : Codec) (now : Int) (args : Args) (fs fs' : Fs) (inp : List Char)
    (h1 : ¬ args.temp_directory ++ ['/'] <+: args.output_directory ++ ['/'])
    (h2 : ¬ args.output_directory ++ ['/'] <+: args.temp_directory ++ ['/'])
    (h : compress_single_file codec now args fs inp = .ok fs')
    (hfs : ∀ p, isUnderRoot args.temp_directory p = true → fsLookup fs p = none) :
    ∀ p, isUnderRoot args.temp_directory p = true → fsLookup fs' p = none := by
  intro p hp
  have hpout : p ≠ osPathJoin args.output_directory
      (osPathRelpath inp args.input_directory) := by
    intro hEq
    have hfalse := isUnderRoot_eq_false_of_prefix args.temp_directory
      args.output_directory _ h1 h2
      (prefix_osPathJoin args.output_directory
        (osPathRelpath inp args.input_directory))
    rw [← hEq, hp] at hfalse
    cases hfalse
  have hpfinal : ∀ T sfx', p ≠ resolvedOutputName
      (osPathJoin args.output_directory (osPathRelpath inp args.input_directory))
      sfx' T := by
    intro T sfx' hEq
    have hfalse := isUnderRoot_eq_false_of_prefix args.temp_directory
      args.output_directory _ h1 h2
      (prefix_resolvedOutputName args.output_directory
        (osPathRelpath inp args.input_directory) sfx' T)
    rw [← hEq, hp] at hfalse
    cases hfalse
  simp only [compress_single_file] at h
  split at h
  · simp only [Except.ok.injEq] at h
    subst h
    exact hfs p hp
  · split at h
    · simp only [Except.ok.injEq] at h
      subst h
      unfold shutilCopyfile
      cases him : fsLookup fs inp with
      | none => exact hfs p hp
      | some f => simp [fsLookup_fsInsert, hpout, hfs p hp]
    · split at h
      · simp at h
      · rename_i fs₁ temp' heq
        have hf₁ : ∀ q, q ≠ temp' → fsLookup fs₁ q = fsLookup fs q := by
          by_cases himg : lowercase_file_extension inp ∈ IMPLEMENTED_IMAGE_FORMATS
          · rw [if_pos himg] at heq
            exact compress_image_frame codec fs inp _ fs₁ temp' heq
          · rw [if_neg himg] at heq
            simp only [Except.ok.injEq] at heq
            intro q hq
            have hsnd : temp' = correct_video_extension
                (osPathJoin args.temp_directory
                  (osPathRelpath inp args.input_directory)) := by
              rw [← compress_video_snd codec fs inp
                (osPathJoin args.temp_directory
                  (osPathRelpath inp args.input_directory)), heq]
            have hfr := compress_video_frame codec fs inp
              (osPathJoin args.temp_directory
                (osPathRelpath inp args.input_directory)) q (hsnd ▸ hq)
            rw [heq] at hfr
            exact hfr
        rw [choose_resolver_result_lookup now fs₁ inp temp'
          (osPathJoin args.output_directory
            (osPathRelpath inp args.input_directory)) args.suffix fs' p h
          hpout (hpfinal temp' args.suffix)]
        by_cases hpT : p = temp'
        · simp [hpT]
        · rw [if_neg hpT, hf₁ p hpT]
          exact hfs p hp

end MediaCompressor

namespace MediaCompressor

theorem run_preserves_empty_temp (codec : Codec) (now : Int) (args : Args)
    (h1 : ¬ args.temp_directory ++ ['/'] <+: args.output_directory ++ ['/'])
    (h2 : ¬ args.output_directory ++ ['/'] <+: args.temp_directory ++ ['/']) :
    ∀ (files : List (List Char)) (fs fsN : Fs),
      compress_all_files_run codec now args files fs = .ok fsN →
      (∀ p, isUnderRoot args.temp_directory p = true → fsLookup fs p = none) →
      (∀ p, isUnderRoot args.temp_directory p = true → fsLookup fsN p = none) := by
  intro files
  induction files with
  | nil =>
    intro fs fsN hrun hfs
    simp only [compress_all_files_run, List.foldlM_nil] at hrun
    have : fs = fsN := Except.ok.inj hrun
    exact this ▸ hfs
  | cons f rest ih =>
    intro fs fsN hrun hfs
    simp only [compress_all_files_run, List.foldlM_cons] at hrun
    cases hstep : compress_single_file codec now args fs f with
    | error e =>
      rw [hstep] at hrun
      exact Except.noConfusion hrun
    | ok fs₁ =>
      rw [hstep] at hrun
      exact ih fs₁ fsN hrun
        (compress_single_file_preserves_empty_temp codec now args fs fs₁ f
          h1 h2 hstep hfs)

theorem mem_of_fsLookup_eq_some (fs : Fs) (p : List Char) (f : File)
    (h : fsLookup fs p = some f) : (p, f) ∈ fs := by
  induction fs with
  | nil => simp [fsLookup] at h
  | cons a rest ih =>
    obtain ⟨k, v⟩ := a
    by_cases hk : k = p
    · subst hk
      have h' : v = f := by simpa [fsLookup] using h
      subst h'
      exact List.mem_cons_self _ _
    · simp only [fsLookup, if_neg hk] at h
      exact List.mem_cons_of_mem _ (ih h)

theorem lookup_none_of_entries_not_under (fs : Fs) (temp : List Char)
    (hfs : ∀ e ∈ fs, isUnderRoot temp e.1 = false) :
    ∀ p, isUnderRoot temp p = true → fsLookup fs p = none := by
  intro p hp
  cases hl : fsLookup fs p with
  | none => rfl
  | some f =>
    have hmem := mem_of_fsLookup_eq_some fs p f hl
    have := hfs (p, f) hmem
    rw [hp] at this
    cases this

/-- When nothing is under the temp root, the Temp Reclaimer succeeds and
its `rmtree` removes nothing. -/
theorem clean_up_ok_of_no_temp_lookup (fs : Fs) (temp : List Char)
    (hfs : ∀ p, isUnderRoot temp p = true → fsLookup fs p = none) :
    clean_up_temp_directory fs temp = .ok fs := by
  have hent : ∀ e ∈ fs, isUnderRoot temp e.1 = false := by
    intro e he
    cases hb : isUnderRoot temp e.1
    · rfl
    · have hnone := hfs e.1 hb
      have hsome := fsLookup_isSome_of_mem fs e he
      rw [hnone] at hsome
      cases hsome
  have hglob : glob_temp_files fs temp = [] := by
    unfold glob_temp_files
    rw [List.filter_eq_nil_iff]
    intro q hq
    obtain ⟨e, he, rfl⟩ := List.mem_map.mp hq
    simp [hent e he]
  unfold clean_up_temp_directory
  rw [hglob, if_neg (by simp)]
  exact congrArg Except.ok (by
    rw [List.filter_eq_self]
    intro e he
    simp [hent e he])

/-- A visible (non-hidden) regular file left under the temp root makes the
Temp Reclaimer fail fatally. -/
theorem clean_up_error_of_visible_leftover (fs : Fs) (temp p : List Char)
    (f : File) (hmem : (p, f) ∈ fs) (hunder : isUnderRoot temp p = true)
    (hvis : globVisible (p.drop (temp.length + 1)) = true) :
    clean_up_temp_directory fs temp = .error .tempDirectoryNotEmpty := by
  have hpmem : p ∈ glob_temp_files fs temp := by
    unfold glob_temp_files
    exact List.mem_filter.mpr
      ⟨List.mem_map.mpr ⟨(p, f), hmem, rfl⟩, by simp [hunder, hvis]⟩
  have hlen : 0 < (glob_temp_files fs temp).length :=
    List.length_pos.mpr (List.ne_nil_of_mem hpmem)
  unfold clean_up_temp_directory
  rw [if_pos (by omega)]

/-- Claim C7 counterexample: a regular file `tmp/.h` remaining under the
temp root `tmp` is invisible to the reclaimer's glob (the dot-file rule):
`clean_up_temp_directory` does not fail fatally — it succeeds and deletes
the temp tree, leftover file included. -/
theorem clean_up_accepts_hidden_leftover :
    (("tmp/.h".toList, (⟨[1], 0, 0⟩ : File)) ∈
        ([("tmp/.h".toList, ⟨[1], 0, 0⟩)] : Fs) ∧
      isUnderRoot "tmp".toList "tmp/.h".toList = true) ∧
    clean_up_temp_directory [("tmp/.h".toList, ⟨[1], 0, 0⟩)] "tmp".toList =
      .ok [] := by
  exact ⟨⟨by decide, by decide⟩, by decide⟩

/-- Claim C7 (amended): (i) the Selection Resolver removes the temp
candidate from the temp tree by the end of its step for every successfully
processed file (moved to the output or deleted); (ii) every successful run
that starts with no file under the temp root and whose output root is
prefix-incompatible with the temp root ends with no file at all under the
temp root, and the Temp Reclaimer then succeeds, deleting the temp tree;
(iii) the Temp Reclaimer fails fatally if any non-hidden regular file
remains under the temp root — its glob-based listing skips dot-files, so a
hidden leftover is not detected (see the counterexample). -/
theorem resolver_drains_temp_and_reclaimer_checks :
    (∀ (now : Int) (fs : Fs) (inp T out sfx : List Char) (fs' : Fs),
      choose_compression_or_original_file now fs inp T out sfx = .ok fs' →
      T ≠ out → T ≠ resolvedOutputName out sfx T →
      fsLookup fs' T = none) ∧
    (∀ (codec : Codec) (now : Int) (args : Args)
        (files : List (List Char)) (fs₀ fsN : Fs),
      ¬ args.temp_directory ++ ['/'] <+: args.output_directory ++ ['/'] →
      ¬ args.output_directory ++ ['/'] <+: args.temp_directory ++ ['/'] →
      (∀ e ∈ fs₀, isUnderRoot args.temp_directory e.1 = false) →
      compress_all_files_run codec now args files fs₀ = .ok fsN →
      (∀ p, isUnderRoot args.temp_directory p = true →
        fsLookup fsN p = none) ∧
      clean_up_temp_directory fsN args.temp_directory = .ok fsN) ∧
    (∀ (fs : Fs) (temp p : List Char) (f : File),
      (p, f) ∈ fs → isUnderRoot temp p = true →
      globVisible (p.drop (temp.length + 1)) = true →
      clean_up_temp_directory fs temp = .error .tempDirectoryNotEmpty) := by
  refine ⟨?_, ?_, clean_up_error_of_visible_leftover⟩
  · intro now fs inp T out sfx fs' h hTout hTfinal
    rw [choose_resolver_result_lookup now fs inp T out sfx fs' T h hTout
      hTfinal]
    simp
  · intro codec now args files fs₀ fsN h1 h2 hent hrun
    have hl := run_preserves_empty_temp codec now args h1 h2 files fs₀ fsN
      hrun (lookup_none_of_entries_not_under fs₀ args.temp_directory hent)
    exact ⟨hl, clean_up_ok_of_no_temp_lookup fsN args.temp_directory hl⟩

/-- Witness for the amended C7: a one-file run (an unrecognized `.txt`
file, copied to the output) under the default temp root leaves nothing
under the temp root, and the reclaimer succeeds. -/
theorem resolver_drains_temp_and_reclaimer_witness :
    clean_up_temp_directory
        [("out/a.txt".toList, ⟨[1], 5, 5⟩), ("in/a.txt".toList, ⟨[1], 2, 3⟩)]
        "temp_RG01COMPRESS".toList =
      .ok [("out/a.txt".toList, ⟨[1], 5, 5⟩),
           ("in/a.txt".toList, ⟨[1], 2, 3⟩)] :=
  (resolver_drains_temp_and_reclaimer_checks.2.1
    ⟨fun _ => "JPEG".toList, id, id, fun f => (1, none)⟩ 5
    (parse_arguments_defaults 8 "in".toList "out".toList)
    ["in/a.txt".toList]
    [("in/a.txt".toList, ⟨[1], 2, 3⟩)]
    [("out/a.txt".toList, ⟨[1], 5, 5⟩), ("in/a.txt".toList, ⟨[1], 2, 3⟩)]
    (by decide) (by decide) (by decide) (by decide)).2

end MediaCompressor
